import Mathlib

/-!
Verification development for the Nodle I-Ching encoder/renderer.

The repository has two source files:
* `src/core/encoder/Encoder.ts` — `Encoder.encode`, which packs a string into a
  fixed 8×8 grid of 16-bit cells (a `Uint16Array`).
* the `Writer` class (rasterizer) — `Writer.render` and its drawing helpers
  (`drawFinderPattern`, `drawAlignmentPattern`, `drawCircle`,
  `setPixelSymmetricOctant`, `drawSymbol`, `fillRect`).

Supporting modules imported by those files (`EncodedIChing`, `BitMatrix`,
`ImageData`, `constants`) are not part of the shown sources; where a claim
depends on them they are modelled from the specification and marked as such.

Modelling conventions:
* JS strings are lists of UTF-16 code units (`List ℕ`); `charCodeAt i` is the
  list entry at `i`.
* `Uint16Array` cells are `ℕ` values; every store is reduced modulo 2^16
  (`Int.toNat` after `% 65536`), out-of-range stores are discarded exactly as
  `List.set` discards an out-of-range index, and a read past the mapping
  table's end (`undefined`, which `ToUint16` sends to 0) yields 0.
* All pixel arithmetic in the rasterizer is over `ℚ` (JS numbers; every value
  the code manipulates is a small-denominator rational, for which JS floating
  point arithmetic is exact).
-/

set_option maxRecDepth 8000

namespace Encoder

/-- IChing code version (source: `Encoder.VERSION = 0`). -/
def VERSION : ℕ := 0

/-- Width, in symbols, of the IChing code (source: `Encoder.WIDTH = 8`). -/
def WIDTH : ℕ := 8

/-- Height, in symbols, of the IChing code (source: `Encoder.HEIGHT = 8`). -/
def HEIGHT : ℕ := 8

/-- The character-to-symbol table of `Encoder.MAPPING_TABLE`, verbatim from the
source (an `Int16Array` of 128 entries indexed by character code; `-1` marks an
unsupported character). -/
def MAPPING_TABLE : List ℤ := [
  -1, -1, -1, -1, -1, -1, -1, -1, -1, -1, -1, -1, -1, -1, -1, -1,
  -1, -1, -1, -1, -1, -1, -1, -1, -1, -1, -1, -1, -1, -1, -1, -1,
  -1, -1, -1, -1, -1, -1, -1, -1, -1, -1, -1, -1, -1, -1, -1, -1,
  52, 53, 54, 55, 56, 57, 58, 59, 60, 61, -1, -1, -1, -1, -1, -1,
  -1, 26, 27, 28, 29, 30, 31, 32, 33, 34, 35, 36, 37, 38, 39, 40,
  41, 42, 43, 44, 45, 46, 47, 48, 49, 50, 51, -1, -1, -1, -1, -1,
  -1, 0, 1, 2, 3, 4, 5, 6, 7, 8, 9, 10, 11, 12, 13, 14,
  15, 16, 17, 18, 19, 20, 21, 22, 23, 24, 25, -1, -1, -1, -1, -1]

/-- Conversion applied by a `Uint16Array` store (ECMAScript `ToUint16`). -/
def toUint16 (v : ℤ) : ℕ := (v % 65536).toNat

/-- Value stored by `data[i + 2] = this.MAPPING_TABLE[content.charCodeAt(i)]`:
the table entry reduced to 16 bits, or 0 when the code is past the table's end
(the lookup yields `undefined` and `ToUint16 undefined = 0`). -/
def mappedCode (c : ℕ) : ℕ :=
  match MAPPING_TABLE[c]? with
  | some v => toUint16 v
  | none => 0

/-- A character code the table supports: its entry exists and is not `-1`. -/
def isMapped (c : ℕ) : Bool :=
  match MAPPING_TABLE[c]? with
  | some v => decide (0 ≤ v)
  | none => false

/-- Shape of the object literal `Encoder.encode` returns
(`{ version, width, height, data }`, source lines 60-61). The shared
`EncodedIChing` interface file is not among the shown sources; this structure
records exactly the fields the encoder produces. -/
structure EncodedIChing where
  version : ℕ
  width : ℕ
  height : ℕ
  data : List ℕ

/-- Initialization loop of `encode`: a zero-filled `Uint16Array` of
`WIDTH * HEIGHT` cells, then `data[i] = i` for every index. -/
def initData : List ℕ :=
  (List.range (WIDTH * HEIGHT)).foldl (fun d i => d.set i (i % 65536))
    (List.replicate (WIDTH * HEIGHT) 0)

/-- Embedding of `Encoder.encode` (source lines 44-62): initialize the cell
array with the filler sentinel, overwrite cell 0 with the version and cell 1
with the content length, then overwrite cell `i + 2` with the mapped code of
character `i`. There is no validation and no failure path in the source. -/
def encode (content : List ℕ) : EncodedIChing :=
  let data1 := (initData.set 0 (VERSION % 65536)).set 1 (content.length % 65536)
  let data2 := (List.range content.length).foldl
    (fun d i => d.set (i + 2) (mappedCode (content.getD i 0))) data1
  { version := VERSION, width := WIDTH, height := HEIGHT, data := data2 }

/-- Property names of the object `encode` returns, as written in the source
(`return { version, width, height, data }`). -/
def encodeResultProps : List String := ["version", "width", "height", "data"]

/-- Numeric properties of the object `encode` returns, as a JS property lookup:
accessing any other name on that object yields `undefined` (`none`). -/
def encodeNumericProp (_content : List ℕ) : String → Option ℕ := fun s =>
  if s = "version" then some VERSION
  else if s = "width" then some WIDTH
  else if s = "height" then some HEIGHT
  else none

theorem initData_eq : initData = List.range 64 := by decide

theorem length_foldl_setFrom2 (f : ℕ → ℕ) :
    ∀ (n : ℕ) (d : List ℕ),
      ((List.range n).foldl (fun d i => d.set (i + 2) (f i)) d).length = d.length := by
  intro n
  induction n with
  | zero => intro d; rfl
  | succ n ih =>
    intro d
    rw [List.range_succ, List.foldl_append, List.foldl_cons, List.foldl_nil,
      List.length_set, ih]

theorem getElem?_foldl_setFrom2 (f : ℕ → ℕ) :
    ∀ (n : ℕ) (d : List ℕ) (j : ℕ),
      ((List.range n).foldl (fun d i => d.set (i + 2) (f i)) d)[j]? =
        if 2 ≤ j ∧ j - 2 < n ∧ j < d.length then some (f (j - 2)) else d[j]? := by
  intro n
  induction n with
  | zero =>
    intro d j
    have h : ¬(2 ≤ j ∧ j - 2 < 0 ∧ j < d.length) := by omega
    rw [if_neg h]; rfl
  | succ n ih =>
    intro d j
    rw [List.range_succ, List.foldl_append, List.foldl_cons, List.foldl_nil,
      List.getElem?_set, length_foldl_setFrom2, ih]
    by_cases hj : n + 2 = j
    · subst hj
      have h1 : 2 ≤ n + 2 ∧ n + 2 - 2 < n + 1 ∧ n + 2 < d.length ↔ n + 2 < d.length := by omega
      by_cases hL : n + 2 < d.length
      · have he : n + 2 - 2 = n := by omega
        simp [hL, he]
      · have h2 : ¬(2 ≤ n + 2 ∧ n + 2 - 2 < n + 1 ∧ n + 2 < d.length) := by omega
        have h3 : ¬(2 ≤ n + 2 ∧ n + 2 - 2 < n ∧ n + 2 < d.length) := by omega
        simp only [if_pos rfl, if_neg hL, if_neg h2, if_neg h3]
        exact (List.getElem?_eq_none (by omega)).symm
    · rw [if_neg hj]
      have h4 : (2 ≤ j ∧ j - 2 < n ∧ j < d.length) ↔
          (2 ≤ j ∧ j - 2 < n + 1 ∧ j < d.length) := by omega
      exact if_congr h4 rfl rfl

theorem encode_data_def (content : List ℕ) :
    (encode content).data = (List.range content.length).foldl
      (fun d i => d.set (i + 2) (mappedCode (content.getD i 0)))
      ((initData.set 0 (VERSION % 65536)).set 1 (content.length % 65536)) := rfl

theorem encode_data_length (content : List ℕ) : (encode content).data.length = 64 := by
  rw [encode_data_def, length_foldl_setFrom2, List.length_set, List.length_set,
    initData_eq, List.length_range]

theorem encode_data_getElem? (content : List ℕ) (j : ℕ) (hj : j < 64) :
    (encode content).data[j]? = some (
      if j = 0 then 0
      else if j = 1 then content.length % 65536
      else if j - 2 < content.length then mappedCode (content.getD (j - 2) 0)
      else j) := by
  rw [encode_data_def, getElem?_foldl_setFrom2, List.length_set, List.length_set,
    initData_eq, List.length_range]
  rcases Nat.eq_zero_or_pos j with h0 | h0
  · subst h0
    have h : ¬(2 ≤ 0 ∧ 0 - 2 < content.length ∧ 0 < 64) := by omega
    rw [if_neg h, List.getElem?_set, if_neg (by omega : ¬(1 = 0)),
      List.getElem?_set, if_pos rfl,
      if_pos (by rw [List.length_range]; omega)]
    simp [VERSION]
  rcases Nat.lt_or_ge j 2 with h1 | h1
  · have hj1 : j = 1 := by omega
    subst hj1
    have h : ¬(2 ≤ 1 ∧ 1 - 2 < content.length ∧ 1 < 64) := by omega
    rw [if_neg h, List.getElem?_set, if_pos rfl,
      if_pos (by rw [List.length_set, List.length_range]; omega)]
    simp
  · by_cases h2 : j - 2 < content.length
    · rw [if_pos (by omega)]
      have hne : j ≠ 0 := by omega
      have hne1 : j ≠ 1 := by omega
      simp only [if_neg hne, if_neg hne1, if_pos h2]
    · rw [if_neg (by omega), List.getElem?_set, if_neg (by omega : ¬(1 = j)),
        List.getElem?_set, if_neg (by omega : ¬(0 = j)),
        List.getElem?_range hj]
      have hne : j ≠ 0 := by omega
      have hne1 : j ≠ 1 := by omega
      simp only [if_neg hne, if_neg hne1, if_neg h2]

end Encoder

namespace Writer

/-- Property names `Writer.render` dereferences on its `EncodedIChing`
argument (`code.rows`, `code.cols`, `code.data`). -/
def renderReadsProps : List String := ["rows", "cols", "data"]

end Writer

/-- Claim C1: for every content of length at most 62 consisting only of mapped
characters, `Encoder.encode` succeeds and returns a grid whose cell 0 is
`VERSION` (0), whose cell 1 is the content length, whose cell `i + 2` is the
`i`-th character's mapped symbol code per the table (digits to 52-61, uppercase
to 26-51, lowercase to 0-25), and whose cells from `content.length + 2` up to
63 each equal their own linear index. -/
theorem claim1_encode_valid_content (content : List ℕ)
    (hlen : content.length ≤ 62)
    (hmap : ∀ c ∈ content, Encoder.isMapped c = true) :
    (Encoder.encode content).data[0]? = some Encoder.VERSION ∧
    (Encoder.encode content).data[1]? = some content.length ∧
    (∀ i, i < content.length →
      (Encoder.encode content).data[i + 2]? =
        some (Encoder.mappedCode (content.getD i 0))) ∧
    (∀ c, c < 128 → 48 ≤ c → c ≤ 57 → Encoder.mappedCode c = 52 + (c - 48)) ∧
    (∀ c, c < 128 → 65 ≤ c → c ≤ 90 → Encoder.mappedCode c = 26 + (c - 65)) ∧
    (∀ c, c < 128 → 97 ≤ c → c ≤ 122 → Encoder.mappedCode c = c - 97) ∧
    (∀ j, content.length + 2 ≤ j → j < 64 →
      (Encoder.encode content).data[j]? = some j) := by
  refine ⟨?_, ?_, ?_, ?_, ?_, ?_, ?_⟩
  · rw [Encoder.encode_data_getElem? content 0 (by omega)]; rfl
  · rw [Encoder.encode_data_getElem? content 1 (by omega)]
    have hm : content.length % 65536 = content.length := Nat.mod_eq_of_lt (by omega)
    simp [hm]
  · intro i hi
    rw [Encoder.encode_data_getElem? content (i + 2) (by omega)]
    simp only [if_neg (by omega : i + 2 ≠ 0), if_neg (by omega : i + 2 ≠ 1)]
    rw [if_pos (by omega : i + 2 - 2 < content.length),
      (by omega : i + 2 - 2 = i)]
  · decide
  · decide
  · decide
  · intro j hj hj64
    rw [Encoder.encode_data_getElem? content j hj64]
    simp only [if_neg (by omega : j ≠ 0), if_neg (by omega : j ≠ 1),
      if_neg (by omega : ¬(j - 2 < content.length))]

/-- Witness for claim C1 at the content "aA0" (codes 97, 65, 48). -/
theorem claim1_witness :
    (Encoder.encode [97, 65, 48]).data[1]? = some 3 ∧
    (Encoder.encode [97, 65, 48]).data[2]? =
      some (Encoder.mappedCode ([97, 65, 48].getD 0 0)) ∧
    (Encoder.encode [97, 65, 48]).data[5]? = some 5 := by
  refine ⟨?_, ?_, ?_⟩
  · exact (claim1_encode_valid_content [97, 65, 48] (by decide) (by decide)).2.1
  · exact (claim1_encode_valid_content [97, 65, 48] (by decide)
      (by decide)).2.2.1 0 (by decide)
  · exact (claim1_encode_valid_content [97, 65, 48] (by decide)
      (by decide)).2.2.2.2.2.2 5 (by decide) (by decide)

/-- Claim C2 counterexample: at the explicit 63-character content "aa…a"
(63 > 62), `Encoder.encode` does not fail with `ContentTooLong`; it returns a
complete 64-cell grid — the length cell holds 63 and the data cells are
written — so the claim "encode fails with ContentTooLong before any cell is
written" is false on the code. -/
theorem claim2_counterexample :
    (Encoder.encode (List.replicate 63 97)).data.length = 64 ∧
    (Encoder.encode (List.replicate 63 97)).data[1]? = some 63 ∧
    (Encoder.encode (List.replicate 63 97)).data[2]? = some 0 := by
  refine ⟨Encoder.encode_data_length _, ?_, ?_⟩ <;> decide

/-- Claim C2 amended: `Encoder.encode` performs no length validation. For
content longer than 62 characters it still returns a 64-cell grid; cell 1
holds the content length reduced modulo 2^16, every cell from index 2 to 63
holds the mapped code of the corresponding character, and the writes addressed
past index 63 are discarded by the fixed-size cell array. -/
theorem claim2_amended (content : List ℕ) (hlen : 62 < content.length) :
    (Encoder.encode content).data.length = 64 ∧
    (Encoder.encode content).data[1]? = some (content.length % 65536) ∧
    (∀ j, 2 ≤ j → j < 64 →
      (Encoder.encode content).data[j]? =
        some (Encoder.mappedCode (content.getD (j - 2) 0))) := by
  refine ⟨Encoder.encode_data_length _, ?_, ?_⟩
  · rw [Encoder.encode_data_getElem? content 1 (by omega)]
    simp
  · intro j hj2 hj64
    rw [Encoder.encode_data_getElem? content j hj64]
    simp only [if_neg (by omega : j ≠ 0), if_neg (by omega : j ≠ 1),
      if_pos (by omega : j - 2 < content.length)]

/-- Witness for claim C2 amended at the 63-character content of code 97. -/
theorem claim2_amended_witness :
    (Encoder.encode (List.replicate 63 97)).data[63]? =
      some (Encoder.mappedCode ((List.replicate 63 97).getD 61 0)) := by
  have h := (claim2_amended (List.replicate 63 97) (by decide)).2.2 63
    (by omega) (by omega)
  simpa using h

/-- Claim C3 counterexample: at the explicit content consisting of the single
unmapped character of code 32 (a space, table entry -1), `Encoder.encode` does
not fail with `UnsupportedCharacter`; it returns a complete 64-cell grid whose
cell 2 holds 65535 (the -1 entry reduced to 16 bits), so the claim "encode
fails with UnsupportedCharacter, producing no partial grid" is false on the
code. -/
theorem claim3_counterexample :
    (Encoder.encode [32]).data.length = 64 ∧
    (Encoder.encode [32]).data[2]? = some 65535 := by
  refine ⟨Encoder.encode_data_length _, ?_⟩
  decide

/-- Claim C3 amended: `Encoder.encode` performs no character validation. A
content containing an unmapped character (table entry -1) still yields a full
64-cell grid, and the offending character's cell receives 65535 (the -1
sentinel reduced modulo 2^16) instead of an error being raised. -/
theorem claim3_amended (content : List ℕ) (i : ℕ)
    (hi : i < content.length) (hcap : i < 62)
    (hbad : Encoder.MAPPING_TABLE[content.getD i 0]? = some (-1)) :
    (Encoder.encode content).data.length = 64 ∧
    (Encoder.encode content).data[i + 2]? = some 65535 := by
  refine ⟨Encoder.encode_data_length _, ?_⟩
  rw [Encoder.encode_data_getElem? content (i + 2) (by omega)]
  rw [if_neg (by omega : ¬(i + 2 = 0)), if_neg (by omega : ¬(i + 2 = 1)),
    (by omega : i + 2 - 2 = i), if_pos hi]
  unfold Encoder.mappedCode
  rw [hbad]
  rfl

/-- Witness for claim C3 amended at the content [32]. -/
theorem claim3_amended_witness :
    (Encoder.encode [32]).data[0 + 2]? = some 65535 :=
  (claim3_amended [32] 0 (by decide) (by decide) (by decide)).2

/-- Claim C4: the composition `render (encode text)` is NOT well-defined
without adaptation: `Writer.render` dereferences the properties `rows` and
`cols` on its argument, but the object `Encoder.encode` returns carries the
properties `version`, `width`, `height`, `data` only, so on `encode "A"`'s
result (content [65]) both lookups yield `undefined` (`none`). -/
theorem claim4_field_mismatch :
    ("rows" ∈ Writer.renderReadsProps ∧ "cols" ∈ Writer.renderReadsProps) ∧
    ("rows" ∉ Encoder.encodeResultProps ∧ "cols" ∉ Encoder.encodeResultProps) ∧
    Encoder.encodeNumericProp [65] "rows" = none ∧
    Encoder.encodeNumericProp [65] "cols" = none := by
  refine ⟨⟨?_, ?_⟩, ⟨?_, ?_⟩, ?_, ?_⟩ <;> decide

/-- Claim C9: for every input whatsoever, `Encoder.encode` terminates and
returns a data array of exactly 64 cells, and the writes addressed past index
63 (for content longer than 62 characters) are silently discarded: the result
equals the grid encoded from the first 62 characters with only cell 1 (the
length cell) differing. -/
theorem claim9_encode_total_fixed_size (content : List ℕ) :
    (Encoder.encode content).data.length = 64 ∧
    (Encoder.encode content).data =
      (Encoder.encode (content.take 62)).data.set 1 (content.length % 65536) := by
  refine ⟨Encoder.encode_data_length _, ?_⟩
  apply List.ext_getElem?
  intro j
  by_cases hj : j < 64
  · rw [Encoder.encode_data_getElem? content j hj, List.getElem?_set,
      Encoder.encode_data_getElem? (content.take 62) j hj]
    by_cases hj1 : 1 = j
    · subst hj1
      norm_num [Encoder.encode_data_length]
    · rw [if_neg hj1]
      rcases Nat.eq_zero_or_pos j with h0 | h0
      · subst h0; norm_num
      · have hj2 : 2 ≤ j := by omega
        have hlt : j - 2 < 62 := by omega
        rw [if_neg (by omega : ¬(j = 0)), if_neg (by omega : ¬(j = 1)),
          if_neg (by omega : ¬(j = 0)), if_neg (by omega : ¬(j = 1))]
        have hcond : j - 2 < (content.take 62).length ↔ j - 2 < content.length := by
          rw [List.length_take]; omega
        by_cases hc : j - 2 < content.length
        · rw [if_pos hc, if_pos (hcond.mpr hc)]
          have hget : (content.take 62).getD (j - 2) 0 = content.getD (j - 2) 0 := by
            rw [List.getD_eq_getElem?_getD, List.getD_eq_getElem?_getD,
              List.getElem?_take, if_pos hlt]
          rw [hget]
        · rw [if_neg hc, if_neg (fun h => hc (hcond.mp h))]
  · rw [List.getElem?_eq_none (by rw [Encoder.encode_data_length]; omega),
      List.getElem?_eq_none]
    rw [List.length_set, Encoder.encode_data_length]; omega

/-- Claim C10: an unmapped character whose table entry is -1 is stored as
65535 (the entry reduced modulo 2^16 by the `Uint16Array` cell), and a
character whose code is at or beyond the table's end (≥ 128, where the lookup
yields `undefined`) is stored as 0 — both in-range cell values rather than -1. -/
theorem claim10_unsupported_wraps (content : List ℕ) (i : ℕ)
    (hi : i < content.length) (hcap : i < 62) :
    (Encoder.MAPPING_TABLE[content.getD i 0]? = some (-1) →
      (Encoder.encode content).data[i + 2]? = some 65535) ∧
    (128 ≤ content.getD i 0 →
      (Encoder.encode content).data[i + 2]? = some 0) := by
  have hcell : (Encoder.encode content).data[i + 2]? =
      some (Encoder.mappedCode (content.getD i 0)) := by
    rw [Encoder.encode_data_getElem? content (i + 2) (by omega)]
    rw [if_neg (by omega : ¬(i + 2 = 0)), if_neg (by omega : ¬(i + 2 = 1)),
      (by omega : i + 2 - 2 = i), if_pos hi]
  constructor
  · intro hbad
    rw [hcell]
    unfold Encoder.mappedCode
    rw [hbad]
    rfl
  · intro hbig
    rw [hcell]
    unfold Encoder.mappedCode
    rw [List.getElem?_eq_none (by
      have : Encoder.MAPPING_TABLE.length = 128 := by decide
      omega)]

/-- Witness for claim C10 at the contents [32] (entry -1) and [200]
(past the table's end). -/
theorem claim10_witness :
    (Encoder.encode [32]).data[0 + 2]? = some 65535 ∧
    (Encoder.encode [200]).data[0 + 2]? = some 0 :=
  ⟨(claim10_unsupported_wraps [32] 0 (by decide) (by decide)).1 (by decide),
   (claim10_unsupported_wraps [200] 0 (by decide) (by decide)).2 (by decide)⟩

namespace Writer

/-- Modelled from the spec: the layout constants of `constants.ts`, which is
not among the shown sources. Spec §4.3 fixes their names and meanings (pixel
sizes and counts, hence natural numbers) but not their numeric values, so the
rasterizer embedding is parametric over them. -/
structure Consts where
  SYMBOL_DIM : ℕ
  GAP_DIM : ℕ
  GRID_OFFSET : ℕ
  FINDER_OFFSET : ℕ
  FINDER_RADIUS : ℕ
  BITS_PER_SYMBOL : ℕ
  UNIT_DIM : ℕ

/-- Modelled from the spec: the `BitMatrix` bit plane of §4.2 (`BitMatrix.ts`
is not among the shown sources): fixed height and width, all pixels 0 at
construction. Coordinates are JS numbers (`ℚ`); the mandated policy is
"silently ignore out-of-range writes, return background (0) for out-of-range
reads". -/
structure BitMatrix where
  height : ℚ
  width : ℚ
  data : ℚ → ℚ → Bool

/-- Modelled from the spec: `new BitMatrix(height, width)` filled with 0s. -/
def BitMatrix.mk0 (height width : ℚ) : BitMatrix :=
  { height := height, width := width, data := fun _ _ => false }

/-- Coordinate-range predicate of spec §4.2: (x, y) lies in
[0, width) × [0, height). -/
def BitMatrix.inBounds (m : BitMatrix) (x y : ℚ) : Prop :=
  0 ≤ x ∧ x < m.width ∧ 0 ≤ y ∧ y < m.height

instance (m : BitMatrix) (x y : ℚ) : Decidable (m.inBounds x y) := by
  unfold BitMatrix.inBounds
  infer_instance

/-- Modelled from the spec: `BitMatrix.set` writes one pixel; out-of-range
writes are silently ignored (§4.2). -/
def BitMatrix.set (m : BitMatrix) (x y : ℚ) (color : Bool) : BitMatrix :=
  if m.inBounds x y then
    { m with data := fun a b => if a = x ∧ b = y then color else m.data a b }
  else m

/-- Modelled from the spec: `BitMatrix.get` reads one pixel; out-of-range
reads return background 0 (§4.2). -/
def BitMatrix.get (m : BitMatrix) (x y : ℚ) : Bool :=
  if m.inBounds x y then m.data x y else false

/-- Folding `BitMatrix.set` with one color over a list of points; the common
shape of every drawing primitive in the Writer. -/
def setAll (pts : List (ℚ × ℚ)) (color : Bool) (m : BitMatrix) : BitMatrix :=
  pts.foldl (fun m p => m.set p.1 p.2 color) m

theorem BitMatrix.width_set (m : BitMatrix) (x y : ℚ) (c : Bool) :
    (m.set x y c).width = m.width := by
  unfold BitMatrix.set
  split <;> rfl

theorem BitMatrix.height_set (m : BitMatrix) (x y : ℚ) (c : Bool) :
    (m.set x y c).height = m.height := by
  unfold BitMatrix.set
  split <;> rfl

theorem BitMatrix.inBounds_set (m : BitMatrix) (x y a b : ℚ) (c : Bool) :
    (m.set a b c).inBounds x y ↔ m.inBounds x y := by
  unfold BitMatrix.inBounds
  rw [BitMatrix.width_set, BitMatrix.height_set]

theorem BitMatrix.get_set (m : BitMatrix) (a b x y : ℚ) (c : Bool) :
    (m.set a b c).get x y =
      if x = a ∧ y = b ∧ m.inBounds x y then c else m.get x y := by
  unfold BitMatrix.set
  by_cases hab : m.inBounds a b
  · rw [if_pos hab]
    show (if m.inBounds x y then (if x = a ∧ y = b then c else m.data x y)
      else false) = _
    by_cases hxy : m.inBounds x y
    · rw [if_pos hxy]
      by_cases he : x = a ∧ y = b
      · rw [if_pos he, if_pos ⟨he.1, he.2, hxy⟩]
      · rw [if_neg he, if_neg (fun hc => he ⟨hc.1, hc.2.1⟩)]
        unfold BitMatrix.get
        rw [if_pos hxy]
    · rw [if_neg hxy, if_neg (fun hc => hxy hc.2.2)]
      unfold BitMatrix.get
      rw [if_neg hxy]
  · rw [if_neg hab,
      if_neg (by rintro ⟨rfl, rfl, h3⟩; exact hab h3)]

theorem width_setAll (pts : List (ℚ × ℚ)) (c : Bool) :
    ∀ m : BitMatrix, (setAll pts c m).width = m.width := by
  induction pts with
  | nil => intro m; rfl
  | cons p t ih =>
    intro m
    show (setAll t c (m.set p.1 p.2 c)).width = m.width
    rw [ih, BitMatrix.width_set]

theorem height_setAll (pts : List (ℚ × ℚ)) (c : Bool) :
    ∀ m : BitMatrix, (setAll pts c m).height = m.height := by
  induction pts with
  | nil => intro m; rfl
  | cons p t ih =>
    intro m
    show (setAll t c (m.set p.1 p.2 c)).height = m.height
    rw [ih, BitMatrix.height_set]

theorem setAll_append (l1 l2 : List (ℚ × ℚ)) (c : Bool) (m : BitMatrix) :
    setAll (l1 ++ l2) c m = setAll l2 c (setAll l1 c m) :=
  List.foldl_append _ _ _ _

theorem setAll_get (pts : List (ℚ × ℚ)) (c : Bool) :
    ∀ (m : BitMatrix) (x y : ℚ),
      (setAll pts c m).get x y =
        if (x, y) ∈ pts ∧ m.inBounds x y then c else m.get x y := by
  induction pts with
  | nil =>
    intro m x y
    rw [if_neg (by simp)]
    rfl
  | cons p t ih =>
    intro m x y
    show (setAll t c (m.set p.1 p.2 c)).get x y = _
    rw [ih, BitMatrix.get_set]
    by_cases hb : m.inBounds x y
    · have hb2 : (m.set p.1 p.2 c).inBounds x y := (BitMatrix.inBounds_set _ _ _ _ _ _).mpr hb
      by_cases ht : (x, y) ∈ t
      · rw [if_pos ⟨ht, hb2⟩, if_pos ⟨List.mem_cons_of_mem _ ht, hb⟩]
      · rw [if_neg (by tauto)]
        by_cases hp : x = p.1 ∧ y = p.2
        · rw [if_pos ⟨hp.1, hp.2, hb⟩,
            if_pos ⟨by rw [List.mem_cons]; left; rw [hp.1, hp.2], hb⟩]
        · rw [if_neg (by tauto), if_neg (by
            intro hc
            rcases hc with ⟨hmem, _⟩
            rw [List.mem_cons] at hmem
            rcases hmem with heq | hmem
            · exact hp ⟨congrArg Prod.fst heq, congrArg Prod.snd heq⟩
            · exact ht hmem)]
    · have hb2 : ¬(m.set p.1 p.2 c).inBounds x y :=
        fun h => hb ((BitMatrix.inBounds_set _ _ _ _ _ _).mp h)
      rw [if_neg (by tauto), if_neg (by tauto), if_neg (by tauto)]

end Writer

namespace Writer

/-- Fuel-indexed unfolding of the counting loop
`for (let i = s; i < b; i++)` (counter values only). -/
def intsFromFuel : ℕ → ℚ → ℚ → List ℚ
  | 0, _, _ => []
  | n + 1, s, b => if s < b then s :: intsFromFuel n (s + 1) b else []

/-- Values taken by the counter of `for (let i = s; i < b; i++)`. The fuel
`⌈b - s⌉` is exactly the number of iterations (the counter advances by 1 per
step); `intsFrom_eq` proves the loop recurrence, so the definition is a
faithful rendering of the loop. -/
def intsFrom (s b : ℚ) : List ℚ := intsFromFuel (⌈b - s⌉).toNat s b

theorem intsFrom_eq (s b : ℚ) :
    intsFrom s b = if s < b then s :: intsFrom (s + 1) b else [] := by
  unfold intsFrom
  by_cases h : s < b
  · have h1 : 0 < ⌈b - s⌉ := Int.lt_ceil.mpr (by push_cast; linarith)
    obtain ⟨n, hn⟩ : ∃ n, (⌈b - s⌉).toNat = n + 1 := ⟨(⌈b - s⌉).toNat - 1, by omega⟩
    rw [hn]
    show (if s < b then s :: intsFromFuel n (s + 1) b else []) = _
    rw [if_pos h, if_pos h]
    have h2 : ⌈b - (s + 1)⌉ = ⌈b - s⌉ - 1 := by
      rw [show b - (s + 1) = b - s - 1 by ring, Int.ceil_sub_one]
    rw [h2]
    have h3 : (⌈b - s⌉ - 1).toNat = n := by omega
    rw [h3]
  · have h1 : ⌈b - s⌉ ≤ 0 := Int.ceil_le.mpr (by push_cast; linarith)
    have h2 : (⌈b - s⌉).toNat = 0 := by omega
    rw [h2, if_neg h]
    rfl

/-- Fuel-indexed unfolding of the radius loop
`for (let i = s; i <= b; i++)` (counter values only). -/
def ascRadiiFuel : ℕ → ℚ → ℚ → List ℚ
  | 0, _, _ => []
  | n + 1, s, b => if s ≤ b then s :: ascRadiiFuel n (s + 1) b else []

/-- Values taken by the counter of `for (let i = s; i <= b; i++)` — the radius
loops of `drawFinderPattern` and `drawAlignmentPattern`. The fuel `⌊b - s⌋ + 1`
is exactly the number of iterations; `ascRadii_eq` proves the loop recurrence. -/
def ascRadii (s b : ℚ) : List ℚ := ascRadiiFuel (⌊b - s⌋ + 1).toNat s b

theorem ascRadii_eq (s b : ℚ) :
    ascRadii s b = if s ≤ b then s :: ascRadii (s + 1) b else [] := by
  unfold ascRadii
  by_cases h : s ≤ b
  · have h1 : 0 ≤ ⌊b - s⌋ := Int.le_floor.mpr (by push_cast; linarith)
    obtain ⟨n, hn⟩ : ∃ n, (⌊b - s⌋ + 1).toNat = n + 1 := ⟨⌊b - s⌋.toNat, by omega⟩
    rw [hn]
    show (if s ≤ b then s :: ascRadiiFuel n (s + 1) b else []) = _
    rw [if_pos h, if_pos h]
    have h2 : ⌊b - (s + 1)⌋ = ⌊b - s⌋ - 1 := by
      rw [show b - (s + 1) = b - s - 1 by ring, Int.floor_sub_one]
    rw [h2]
    have h3 : (⌊b - s⌋ - 1 + 1).toNat = n := by omega
    rw [h3]
  · have h1 : ⌊b - s⌋ < 0 := Int.floor_lt.mpr (by push_cast; linarith)
    have h2 : (⌊b - s⌋ + 1).toNat = 0 := by omega
    rw [h2, if_neg h]
    rfl

theorem ascRadiiFuel_bounds :
    ∀ (n : ℕ) (s b : ℚ), ∀ q ∈ ascRadiiFuel n s b, s ≤ q ∧ q ≤ b := by
  intro n
  induction n with
  | zero =>
    intro s b q hq
    exact absurd hq (List.not_mem_nil q)
  | succ n ih =>
    intro s b q hq
    unfold ascRadiiFuel at hq
    by_cases hsb : s ≤ b
    · rw [if_pos hsb, List.mem_cons] at hq
      rcases hq with hq | hq
      · subst hq; exact ⟨le_refl q, hsb⟩
      · have h2 := ih (s + 1) b q hq
        exact ⟨by linarith [h2.1], h2.2⟩
    · rw [if_neg hsb] at hq
      exact absurd hq (List.not_mem_nil q)

theorem ascRadii_bounds {s b q : ℚ} (h : q ∈ ascRadii s b) : s ≤ q ∧ q ≤ b :=
  ascRadiiFuel_bounds _ s b q h

theorem ascRadii_natCast : ∀ (d k m : ℕ), m + 1 - k = d →
    ascRadii (k : ℚ) (m : ℚ) = (List.range' k d).map (fun n : ℕ => (n : ℚ)) := by
  intro d
  induction d with
  | zero =>
    intro k m hd
    rw [ascRadii_eq, if_neg (by
      rw [not_le, Nat.cast_lt]
      omega)]
    rfl
  | succ d ih =>
    intro k m hd
    rw [ascRadii_eq, if_pos (by
      rw [Nat.cast_le]
      omega)]
    rw [List.range'_succ, List.map_cons]
    congr 1
    rw [show ((k : ℚ) + 1) = ((k + 1 : ℕ) : ℚ) by push_cast; ring]
    exact ih (k + 1) m (by omega)

theorem intsFrom_natCast : ∀ (d k m : ℕ), m - k = d →
    intsFrom (k : ℚ) (m : ℚ) = (List.range' k d).map (fun n : ℕ => (n : ℚ)) := by
  intro d
  induction d with
  | zero =>
    intro k m hd
    rw [intsFrom_eq, if_neg (by
      rw [not_lt, Nat.cast_le]
      omega)]
    rfl
  | succ d ih =>
    intro k m hd
    rw [intsFrom_eq, if_pos (by
      rw [Nat.cast_lt]
      omega)]
    rw [List.range'_succ, List.map_cons]
    congr 1
    rw [show ((k : ℚ) + 1) = ((k + 1 : ℕ) : ℚ) by push_cast; ring]
    exact ih (k + 1) m (by omega)

theorem intsFrom_zero_natCast (n : ℕ) :
    intsFrom 0 (n : ℚ) = (List.range n).map (fun m : ℕ => (m : ℚ)) := by
  rw [List.range_eq_range', show (0 : ℚ) = ((0 : ℕ) : ℚ) by norm_num,
    intsFrom_natCast n 0 n (by omega)]

/-- Fuel-indexed unfolding of the midpoint-circle walk of `drawCircle` (the
sequence of (x, y) octant offsets the while-loop visits, with the source's
decision-variable updates). -/
def circleWalkFuel : ℕ → ℚ → ℚ → ℚ → ℚ → ℚ → ℚ → List (ℚ × ℚ)
  | 0, _, _, _, _, _, _ => []
  | n + 1, r, x, y, dx, dy, err =>
    if y ≤ x then
      (x, y) :: (if err ≤ 0 then circleWalkFuel n r x (y + 1) dx (dy + 2) (err + dy)
        else circleWalkFuel n r (x - 1) y (dx + 2) dy (err + (dx + 2) - 2 * r))
    else []

/-- The offsets visited by `drawCircle`'s `while (x >= y)` loop. Each
iteration decreases `x - y` by exactly 1 (either `y++` or `x--`), so the fuel
`⌊x - y⌋ + 1` covers every iteration; `circleWalk_eq` proves the loop
recurrence. -/
def circleWalk (r x y dx dy err : ℚ) : List (ℚ × ℚ) :=
  circleWalkFuel (⌊x - y⌋ + 1).toNat r x y dx dy err

theorem circleWalk_eq (r x y dx dy err : ℚ) :
    circleWalk r x y dx dy err =
      if y ≤ x then
        (x, y) :: (if err ≤ 0 then circleWalk r x (y + 1) dx (dy + 2) (err + dy)
          else circleWalk r (x - 1) y (dx + 2) dy (err + (dx + 2) - 2 * r))
      else [] := by
  unfold circleWalk
  by_cases h : y ≤ x
  · have h1 : 0 ≤ ⌊x - y⌋ := Int.le_floor.mpr (by push_cast; linarith)
    obtain ⟨n, hn⟩ : ∃ n, (⌊x - y⌋ + 1).toNat = n + 1 := ⟨⌊x - y⌋.toNat, by omega⟩
    rw [hn]
    show (if y ≤ x then (x, y) :: _ else []) = _
    rw [if_pos h, if_pos h]
    congr 1
    have hy1 : ⌊x - (y + 1)⌋ = ⌊x - y⌋ - 1 := by
      rw [show x - (y + 1) = x - y - 1 by ring, Int.floor_sub_one]
    have hx1 : ⌊x - 1 - y⌋ = ⌊x - y⌋ - 1 := by
      rw [show x - 1 - y = x - y - 1 by ring, Int.floor_sub_one]
    have h3 : (⌊x - y⌋ - 1 + 1).toNat = n := by omega
    by_cases herr : err ≤ 0
    · rw [if_pos herr, if_pos herr, hy1, h3]
    · rw [if_neg herr, if_neg herr, hx1, h3]
  · have h1 : ⌊x - y⌋ < 0 := Int.floor_lt.mpr (by push_cast; linarith)
    have h2 : (⌊x - y⌋ + 1).toNat = 0 := by omega
    rw [h2, if_neg h]
    rfl

/-- The single-octant offsets emitted by the walk for radius `r`
(`drawCircle` starts at `x = r`, `y = 0`, `dx = 1`, `dy = 1`,
`err = dx - 2 * r`). -/
def circlePoints (r : ℚ) : List (ℚ × ℚ) := circleWalk r r 0 1 1 (1 - 2 * r)

theorem circleWalkFuel_bounds :
    ∀ (n : ℕ) (r x y dx dy err : ℚ), 0 ≤ y → x ≤ r →
      ∀ p ∈ circleWalkFuel n r x y dx dy err, 0 ≤ p.2 ∧ p.2 ≤ p.1 ∧ p.1 ≤ r := by
  intro n
  induction n with
  | zero =>
    intro r x y dx dy err _ _ p hp
    exact absurd hp (List.not_mem_nil p)
  | succ n ih =>
    intro r x y dx dy err hy hx p hp
    unfold circleWalkFuel at hp
    by_cases hyx : y ≤ x
    · rw [if_pos hyx, List.mem_cons] at hp
      rcases hp with hp | hp
      · subst hp
        exact ⟨hy, hyx, hx⟩
      · by_cases herr : err ≤ 0
        · rw [if_pos herr] at hp
          exact ih r x (y + 1) dx (dy + 2) (err + dy) (by linarith) hx p hp
        · rw [if_neg herr] at hp
          exact ih r (x - 1) y (dx + 2) dy (err + (dx + 2) - 2 * r) hy
            (by linarith) p hp
    · rw [if_neg hyx] at hp
      exact absurd hp (List.not_mem_nil p)

theorem circlePoints_bounds (r : ℚ) :
    ∀ p ∈ circlePoints r, 0 ≤ p.2 ∧ p.2 ≤ p.1 ∧ p.1 ≤ r :=
  circleWalkFuel_bounds _ r r 0 1 1 (1 - 2 * r) (le_refl 0) (le_refl r)

end Writer

namespace Writer

/-- The eight pixels written by `setPixelSymmetricOctant` for centre `c` and
octant offset (x, y), in source order. -/
def octantPoints (c : ℚ × ℚ) (x y : ℚ) : List (ℚ × ℚ) :=
  [(c.1 + x, c.2 + y), (c.1 + x, c.2 - y), (c.1 - x, c.2 + y), (c.1 - x, c.2 - y),
   (c.1 + y, c.2 + x), (c.1 + y, c.2 - x), (c.1 - y, c.2 + x), (c.1 - y, c.2 - x)]

/-- Embedding of `Writer.setPixelSymmetricOctant`: the source's eight chained
`matrix.set` calls are the fold of `set` over `octantPoints` in the same
order. -/
def setPixelSymmetricOctant (c : ℚ × ℚ) (x y : ℚ) (color : Bool)
    (m : BitMatrix) : BitMatrix :=
  setAll (octantPoints c x y) color m

/-- Embedding of `Writer.drawCircle` (midpoint algorithm): the walk
`circlePoints r` lists the octant offsets the while-loop visits (the walk
reads no pixel, so emitting the offsets first and folding the writes after is
the same computation), and each visited offset is mirrored into all eight
octants around the centre. -/
def drawCircle (c : ℚ × ℚ) (r : ℚ) (color : Bool) (m : BitMatrix) : BitMatrix :=
  (circlePoints r).foldl (fun m p => setPixelSymmetricOctant c p.1 p.2 color m) m

/-- All pixels written by one `drawCircle` call. -/
def circlePixels (c : ℚ × ℚ) (r : ℚ) : List (ℚ × ℚ) :=
  (circlePoints r).flatMap (fun p => octantPoints c p.1 p.2)

theorem foldl_circle_eq_setAll (c : ℚ × ℚ) (color : Bool) :
    ∀ (l : List (ℚ × ℚ)) (m : BitMatrix),
      l.foldl (fun m p => setPixelSymmetricOctant c p.1 p.2 color m) m =
        setAll (l.flatMap (fun p => octantPoints c p.1 p.2)) color m := by
  intro l
  induction l with
  | nil => intro m; rfl
  | cons p t ih =>
    intro m
    rw [List.foldl_cons, List.flatMap_cons, setAll_append, ih]
    rfl

theorem drawCircle_eq_setAll (c : ℚ × ℚ) (r : ℚ) (color : Bool) (m : BitMatrix) :
    drawCircle c r color m = setAll (circlePixels c r) color m :=
  foldl_circle_eq_setAll c color (circlePoints r) m

/-- Radii of the inner solid disk of `drawFinderPattern`: the loop
`for (let i = 0; i <= r1; i++)` with `r1 = FINDER_RADIUS * 3 / 7`. -/
def finderInnerRadii (C : Consts) : List ℚ :=
  ascRadii 0 ((C.FINDER_RADIUS : ℚ) * 3 / 7)

/-- Radii of the outer ring of `drawFinderPattern`: the loop
`for (let i = r2 + 1; i <= r3; i++)` with `r2 = FINDER_RADIUS * 5 / 7` and
`r3 = FINDER_RADIUS`. -/
def finderOuterRadii (C : Consts) : List ℚ :=
  ascRadii ((C.FINDER_RADIUS : ℚ) * 5 / 7 + 1) (C.FINDER_RADIUS : ℚ)

/-- Radii drawn by `drawAlignmentPattern`: the loop
`for (let i = r1 + 1; i <= r2; i++)`. -/
def alignmentRadii (C : Consts) : List ℚ :=
  ascRadii ((C.FINDER_RADIUS : ℚ) * 3 / 7 + 1) ((C.FINDER_RADIUS : ℚ) * 5 / 7)

/-- Embedding of `Writer.drawFinderPattern`: draw a black circle at every
inner-disk radius, then at every outer-ring radius. -/
def drawFinderPattern (C : Consts) (c : ℚ × ℚ) (m : BitMatrix) : BitMatrix :=
  (finderOuterRadii C).foldl (fun m i => drawCircle c i true m)
    ((finderInnerRadii C).foldl (fun m i => drawCircle c i true m) m)

/-- Embedding of `Writer.drawAlignmentPattern`: a black circle at every radius
strictly between the finder pattern's disk and its outer ring. -/
def drawAlignmentPattern (C : Consts) (c : ℚ × ℚ) (m : BitMatrix) : BitMatrix :=
  (alignmentRadii C).foldl (fun m i => drawCircle c i true m) m

/-- All pixels written by one `drawFinderPattern` call. -/
def finderPixels (C : Consts) (c : ℚ × ℚ) : List (ℚ × ℚ) :=
  (finderInnerRadii C ++ finderOuterRadii C).flatMap (fun r => circlePixels c r)

theorem foldl_drawCircle_eq_setAll (c : ℚ × ℚ) :
    ∀ (l : List ℚ) (m : BitMatrix),
      l.foldl (fun m i => drawCircle c i true m) m =
        setAll (l.flatMap (fun r => circlePixels c r)) true m := by
  intro l
  induction l with
  | nil => intro m; rfl
  | cons r t ih =>
    intro m
    rw [List.foldl_cons, List.flatMap_cons, setAll_append, ih, drawCircle_eq_setAll]

theorem drawFinderPattern_eq_setAll (C : Consts) (c : ℚ × ℚ) (m : BitMatrix) :
    drawFinderPattern C c m = setAll (finderPixels C c) true m := by
  unfold drawFinderPattern finderPixels
  rw [List.flatMap_append, setAll_append, foldl_drawCircle_eq_setAll,
    foldl_drawCircle_eq_setAll]

/-- Embedding of `Writer.fillRect`: set every pixel of a `width`-by-`height`
rectangle starting at (x, y), row by row. -/
def fillRect (x y w h : ℚ) (color : Bool) (m : BitMatrix) : BitMatrix :=
  (intsFrom 0 h).foldl (fun m i =>
    (intsFrom 0 w).foldl (fun m j => m.set (x + j) (y + i) color) m) m

/-- All pixels written by one `fillRect` call. -/
def rectPoints (x y w h : ℚ) : List (ℚ × ℚ) :=
  (intsFrom 0 h).flatMap (fun i => (intsFrom 0 w).map (fun j => (x + j, y + i)))

theorem fillRect_eq_setAll (x y w h : ℚ) (color : Bool) (m : BitMatrix) :
    fillRect x y w h color m = setAll (rectPoints x y w h) color m := by
  unfold fillRect rectPoints
  generalize intsFrom 0 h = rows
  induction rows generalizing m with
  | nil => rfl
  | cons i t ih =>
    rw [List.foldl_cons, List.flatMap_cons, setAll_append, ih]
    congr 1
    unfold setAll
    rw [List.foldl_map]

/-- Left pixel edge of the symbol cell in column `col`
(`col * (SYMBOL_DIM + GAP_DIM) + GRID_OFFSET`). -/
def symbolStartX (C : Consts) (col : ℕ) : ℚ :=
  (col : ℚ) * ((C.SYMBOL_DIM : ℚ) + (C.GAP_DIM : ℚ)) + (C.GRID_OFFSET : ℚ)

/-- Top pixel edge of the symbol cell in row `row`. -/
def symbolStartY (C : Consts) (row : ℕ) : ℚ :=
  (row : ℚ) * ((C.SYMBOL_DIM : ℚ) + (C.GAP_DIM : ℚ)) + (C.GRID_OFFSET : ℚ)

/-- One iteration of `drawSymbol`'s bit loop: fill a solid
`SYMBOL_DIM × UNIT_DIM` bar at vertical offset `UNIT_DIM * bit * 2`, then, when
bit `bit` of the mask is 0, clear a `(UNIT_DIM * 2) × UNIT_DIM` notch at
horizontal offset `UNIT_DIM * 4.5` inside that bar. (`mask & (1 << bit)` is
modelled with natural-number bitwise operations, which agree with JS 32-bit
semantics for every `bit < 31`.) -/
def drawSymbolBar (C : Consts) (row col mask bit : ℕ) (m : BitMatrix) : BitMatrix :=
  let m1 := fillRect (symbolStartX C col)
    (symbolStartY C row + (C.UNIT_DIM : ℚ) * (bit : ℚ) * 2)
    (C.SYMBOL_DIM : ℚ) (C.UNIT_DIM : ℚ) true m
  if mask &&& (1 <<< bit) = 0 then
    fillRect (symbolStartX C col + (C.UNIT_DIM : ℚ) * 4.5)
      (symbolStartY C row + (C.UNIT_DIM : ℚ) * (bit : ℚ) * 2)
      ((C.UNIT_DIM : ℚ) * 2) (C.UNIT_DIM : ℚ) false m1
  else m1

/-- Embedding of `Writer.drawSymbol`: the bit loop
`for (let bit = 0; bit < BITS_PER_SYMBOL; bit++)`, each iteration drawing one
bar as in `drawSymbolBar`. -/
def drawSymbol (C : Consts) (row col mask : ℕ) (m : BitMatrix) : BitMatrix :=
  (List.range C.BITS_PER_SYMBOL).foldl
    (fun m (bit : ℕ) => drawSymbolBar C row col mask bit m) m

/-- Modelled from the spec: the `EncodedIChing` interface consumed by
`Writer.render` is not among the shown sources; spec §3 gives the grid value
the fields `version`, `rows`, `cols` and a cell sequence, and the Writer
dereferences `rows`, `cols` and `data` on it. -/
structure EncodedGrid where
  version : ℕ
  rows : ℕ
  cols : ℕ
  data : List ℕ

/-- Modelled from the spec: the `ImageData` output wrapper (§3 "Bitmap"),
which wraps the completed bit plane. -/
structure ImageData where
  matrix : BitMatrix

/-- Embedding of `Writer.render`: compute the bitmap dimensions from the
grid's row/column counts, allocate a zero-filled bit plane, draw the three
finder patterns and the alignment pattern at the four corners, then draw every
cell's symbol. (A JS read `code.data[i * cols + j]` past the array's end gives
`undefined`, and `undefined & (1 << bit)` is 0 — the same glyph `getD … 0`
produces.) -/
def render (C : Consts) (code : EncodedGrid) : ImageData :=
  let rows := code.rows
  let cols := code.cols
  let imgHeight : ℚ := (rows : ℚ) * (C.SYMBOL_DIM : ℚ) +
    ((rows : ℚ) - 1) * (C.GAP_DIM : ℚ) + (C.GRID_OFFSET : ℚ) * 2
  let imgWidth : ℚ := (cols : ℚ) * (C.SYMBOL_DIM : ℚ) +
    ((cols : ℚ) - 1) * (C.GAP_DIM : ℚ) + (C.GRID_OFFSET : ℚ) * 2
  let m0 := BitMatrix.mk0 imgHeight imgWidth
  let m1 := drawFinderPattern C ((C.FINDER_OFFSET : ℚ), (C.FINDER_OFFSET : ℚ)) m0
  let m2 := drawFinderPattern C (imgWidth - (C.FINDER_OFFSET : ℚ), (C.FINDER_OFFSET : ℚ)) m1
  let m3 := drawFinderPattern C ((C.FINDER_OFFSET : ℚ), imgHeight - (C.FINDER_OFFSET : ℚ)) m2
  let m4 := drawAlignmentPattern C
    (imgWidth - (C.FINDER_OFFSET : ℚ), imgHeight - (C.FINDER_OFFSET : ℚ)) m3
  let m5 := (List.range rows).foldl (fun m i =>
    (List.range cols).foldl (fun m j =>
      drawSymbol C i j (code.data.getD (i * cols + j) 0) m) m) m4
  { matrix := m5 }

end Writer

namespace Writer

theorem foldl_width {α : Type} {g : BitMatrix → α → BitMatrix}
    (hg : ∀ m a, (g m a).width = m.width) :
    ∀ (l : List α) (m : BitMatrix), (List.foldl g m l).width = m.width := by
  intro l
  induction l with
  | nil => intro m; rfl
  | cons a t ih =>
    intro m
    rw [List.foldl_cons, ih, hg]

theorem foldl_height {α : Type} {g : BitMatrix → α → BitMatrix}
    (hg : ∀ m a, (g m a).height = m.height) :
    ∀ (l : List α) (m : BitMatrix), (List.foldl g m l).height = m.height := by
  intro l
  induction l with
  | nil => intro m; rfl
  | cons a t ih =>
    intro m
    rw [List.foldl_cons, ih, hg]

theorem width_fillRect (x y w h : ℚ) (c : Bool) (m : BitMatrix) :
    (fillRect x y w h c m).width = m.width := by
  rw [fillRect_eq_setAll, width_setAll]

theorem height_fillRect (x y w h : ℚ) (c : Bool) (m : BitMatrix) :
    (fillRect x y w h c m).height = m.height := by
  rw [fillRect_eq_setAll, height_setAll]

theorem width_drawFinderPattern (C : Consts) (c : ℚ × ℚ) (m : BitMatrix) :
    (drawFinderPattern C c m).width = m.width := by
  rw [drawFinderPattern_eq_setAll, width_setAll]

theorem height_drawFinderPattern (C : Consts) (c : ℚ × ℚ) (m : BitMatrix) :
    (drawFinderPattern C c m).height = m.height := by
  rw [drawFinderPattern_eq_setAll, height_setAll]

theorem width_drawAlignmentPattern (C : Consts) (c : ℚ × ℚ) (m : BitMatrix) :
    (drawAlignmentPattern C c m).width = m.width := by
  rw [show drawAlignmentPattern C c m = setAll ((alignmentRadii C).flatMap
      (fun r => circlePixels c r)) true m from
    foldl_drawCircle_eq_setAll c (alignmentRadii C) m, width_setAll]

theorem height_drawAlignmentPattern (C : Consts) (c : ℚ × ℚ) (m : BitMatrix) :
    (drawAlignmentPattern C c m).height = m.height := by
  rw [show drawAlignmentPattern C c m = setAll ((alignmentRadii C).flatMap
      (fun r => circlePixels c r)) true m from
    foldl_drawCircle_eq_setAll c (alignmentRadii C) m, height_setAll]

theorem width_drawSymbolBar (C : Consts) (row col mask bit : ℕ) (m : BitMatrix) :
    (drawSymbolBar C row col mask bit m).width = m.width := by
  unfold drawSymbolBar
  dsimp only
  split
  · rw [width_fillRect, width_fillRect]
  · rw [width_fillRect]

theorem height_drawSymbolBar (C : Consts) (row col mask bit : ℕ) (m : BitMatrix) :
    (drawSymbolBar C row col mask bit m).height = m.height := by
  unfold drawSymbolBar
  dsimp only
  split
  · rw [height_fillRect, height_fillRect]
  · rw [height_fillRect]

theorem width_drawSymbol (C : Consts) (row col mask : ℕ) (m : BitMatrix) :
    (drawSymbol C row col mask m).width = m.width := by
  unfold drawSymbol
  apply foldl_width
  intro m bit
  exact width_drawSymbolBar C row col mask bit m

theorem height_drawSymbol (C : Consts) (row col mask : ℕ) (m : BitMatrix) :
    (drawSymbol C row col mask m).height = m.height := by
  unfold drawSymbol
  apply foldl_height
  intro m bit
  exact height_drawSymbolBar C row col mask bit m

theorem BitMatrix.height_mk0 (h w : ℚ) : (BitMatrix.mk0 h w).height = h := rfl

theorem BitMatrix.width_mk0 (h w : ℚ) : (BitMatrix.mk0 h w).width = w := rfl

end Writer

/-- Claim C5: for every grid with rows r and cols c (and any values of the
layout constants), `Writer.render` produces a bitmap whose height is exactly
`r * SYMBOL_DIM + (r - 1) * GAP_DIM + 2 * GRID_OFFSET` and whose width is
exactly `c * SYMBOL_DIM + (c - 1) * GAP_DIM + 2 * GRID_OFFSET`. -/
theorem claim5_render_dimensions (C : Writer.Consts) (g : Writer.EncodedGrid) :
    (Writer.render C g).matrix.height = (g.rows : ℚ) * (C.SYMBOL_DIM : ℚ) +
      ((g.rows : ℚ) - 1) * (C.GAP_DIM : ℚ) + 2 * (C.GRID_OFFSET : ℚ) ∧
    (Writer.render C g).matrix.width = (g.cols : ℚ) * (C.SYMBOL_DIM : ℚ) +
      ((g.cols : ℚ) - 1) * (C.GAP_DIM : ℚ) + 2 * (C.GRID_OFFSET : ℚ) := by
  have hsymH : ∀ (m : Writer.BitMatrix) (i : ℕ),
      ((List.range g.cols).foldl (fun m j =>
        Writer.drawSymbol C i j (g.data.getD (i * g.cols + j) 0) m) m).height =
        m.height := fun m i =>
    Writer.foldl_height (fun m j => Writer.height_drawSymbol C i j _ m)
      (List.range g.cols) m
  have hsymW : ∀ (m : Writer.BitMatrix) (i : ℕ),
      ((List.range g.cols).foldl (fun m j =>
        Writer.drawSymbol C i j (g.data.getD (i * g.cols + j) 0) m) m).width =
        m.width := fun m i =>
    Writer.foldl_width (fun m j => Writer.width_drawSymbol C i j _ m)
      (List.range g.cols) m
  constructor
  · simp only [Writer.render]
    rw [Writer.foldl_height hsymH,
      Writer.height_drawAlignmentPattern, Writer.height_drawFinderPattern,
      Writer.height_drawFinderPattern, Writer.height_drawFinderPattern,
      Writer.BitMatrix.height_mk0]
    ring
  · simp only [Writer.render]
    rw [Writer.foldl_width hsymW,
      Writer.width_drawAlignmentPattern, Writer.width_drawFinderPattern,
      Writer.width_drawFinderPattern, Writer.width_drawFinderPattern,
      Writer.BitMatrix.width_mk0]
    ring

/-- Claim C6: with the finder radius a whole number of sevenths (the
1:1:3-style band design the spec describes; `constants.ts` is not among the
shown sources, so the radius is spec-modelled as any multiple of 7, which
makes the code's band bounds `R*3/7` and `R*5/7` exact), the finder pattern
draws circles at exactly the integer radii 0 through ⌊3R/7⌋ (solid inner
disk) and ⌊5R/7⌋+1 through R (outer ring), leaving the band in between
undrawn, and the alignment pattern draws exactly the integer radii ⌊3R/7⌋+1
through ⌊5R/7⌋, the thresholds being the floored values (here exact). -/
theorem claim6_pattern_bands (C : Writer.Consts) (h7 : 7 ∣ C.FINDER_RADIUS) :
    Writer.finderInnerRadii C =
      (List.range (3 * C.FINDER_RADIUS / 7 + 1)).map (fun n : ℕ => (n : ℚ)) ∧
    Writer.finderOuterRadii C =
      (List.range' (5 * C.FINDER_RADIUS / 7 + 1)
        (C.FINDER_RADIUS - 5 * C.FINDER_RADIUS / 7)).map (fun n : ℕ => (n : ℚ)) ∧
    Writer.alignmentRadii C =
      (List.range' (3 * C.FINDER_RADIUS / 7 + 1)
        (5 * C.FINDER_RADIUS / 7 - 3 * C.FINDER_RADIUS / 7)).map
        (fun n : ℕ => (n : ℚ)) := by
  obtain ⟨t, ht⟩ := h7
  have h3 : 3 * C.FINDER_RADIUS / 7 = 3 * t := by omega
  have h5 : 5 * C.FINDER_RADIUS / 7 = 5 * t := by omega
  have hc3 : (C.FINDER_RADIUS : ℚ) * 3 / 7 = ((3 * t : ℕ) : ℚ) := by
    rw [ht]; push_cast; ring
  have hc5 : (C.FINDER_RADIUS : ℚ) * 5 / 7 = ((5 * t : ℕ) : ℚ) := by
    rw [ht]; push_cast; ring
  refine ⟨?_, ?_, ?_⟩
  · unfold Writer.finderInnerRadii
    rw [hc3, h3, show (0 : ℚ) = ((0 : ℕ) : ℚ) by norm_num,
      Writer.ascRadii_natCast (3 * t + 1) 0 (3 * t) (by omega),
      List.range_eq_range']
  · unfold Writer.finderOuterRadii
    rw [hc5, h5, ht,
      show ((5 * t : ℕ) : ℚ) + 1 = ((5 * t + 1 : ℕ) : ℚ) by push_cast; ring,
      Writer.ascRadii_natCast (7 * t - 5 * t) (5 * t + 1) (7 * t) (by omega)]
  · unfold Writer.alignmentRadii
    rw [hc3, hc5, h3, h5,
      show ((3 * t : ℕ) : ℚ) + 1 = ((3 * t + 1 : ℕ) : ℚ) by push_cast; ring,
      Writer.ascRadii_natCast (5 * t - 3 * t) (3 * t + 1) (5 * t) (by omega)]

/-- Layout constants with finder radius 14, for the claim C6 witness. -/
def constsR14 : Writer.Consts :=
  { SYMBOL_DIM := 0, GAP_DIM := 0, GRID_OFFSET := 0, FINDER_OFFSET := 0,
    FINDER_RADIUS := 14, BITS_PER_SYMBOL := 0, UNIT_DIM := 0 }

/-- Witness for claim C6 at finder radius 14: inner disk radii 0..6, outer
ring radii 11..14, alignment ring radii 7..10. -/
theorem claim6_witness :
    Writer.finderInnerRadii constsR14 = [0, 1, 2, 3, 4, 5, 6] ∧
    Writer.finderOuterRadii constsR14 = [11, 12, 13, 14] ∧
    Writer.alignmentRadii constsR14 = [7, 8, 9, 10] := by
  have h := claim6_pattern_bands constsR14 (by decide)
  refine ⟨?_, ?_, ?_⟩
  · rw [h.1]; decide
  · rw [h.2.1]; decide
  · rw [h.2.2]; decide

namespace Writer

/-- The eight octant-mirror images of an offset (x, y), in the order
`setPixelSymmetricOctant` writes them relative to the centre. -/
def octantOffsets (x y : ℚ) : List (ℚ × ℚ) :=
  [(x, y), (x, -y), (-x, y), (-x, -y), (y, x), (y, -x), (-y, x), (-y, -x)]

theorem octantPoints_eq_map (c : ℚ × ℚ) (x y : ℚ) :
    octantPoints c x y =
      (octantOffsets x y).map (fun o => (c.1 + o.1, c.2 + o.2)) := by
  simp [octantPoints, octantOffsets, sub_eq_add_neg]

theorem mem_octantPoints_iff (c : ℚ × ℚ) (x y u v : ℚ) :
    (c.1 + u, c.2 + v) ∈ octantPoints c x y ↔ (u, v) ∈ octantOffsets x y := by
  rw [octantPoints_eq_map, List.mem_map]
  constructor
  · rintro ⟨o, ho, heq⟩
    have h1 : c.1 + o.1 = c.1 + u := congrArg Prod.fst heq
    have h2 : c.2 + o.2 = c.2 + v := congrArg Prod.snd heq
    have ho1 : o.1 = u := by linarith
    have ho2 : o.2 = v := by linarith
    rw [show ((u : ℚ), (v : ℚ)) = o from Prod.ext ho1.symm ho2.symm]
    exact ho
  · intro h
    exact ⟨(u, v), h, rfl⟩

theorem octantOffsets_closed {a b x y : ℚ} (h : (x, y) ∈ octantOffsets a b) :
    ∀ z ∈ octantOffsets x y, z ∈ octantOffsets a b := by
  simp only [octantOffsets, List.mem_cons, List.not_mem_nil, or_false,
    Prod.mk.injEq] at h
  intro z hz
  simp only [octantOffsets, List.mem_cons, List.not_mem_nil, or_false] at hz ⊢
  rcases h with h8 | h8 | h8 | h8 | h8 | h8 | h8 | h8 <;>
    obtain ⟨rfl, rfl⟩ := h8 <;>
    rcases hz with rfl | rfl | rfl | rfl | rfl | rfl | rfl | rfl <;> simp

theorem mem_finderPixels (C : Consts) (c : ℚ × ℚ) (z : ℚ × ℚ) :
    z ∈ finderPixels C c ↔
      ∃ r ∈ finderInnerRadii C ++ finderOuterRadii C,
        ∃ p ∈ circlePoints r, z ∈ octantPoints c p.1 p.2 := by
  unfold finderPixels circlePixels
  rw [List.mem_flatMap]
  constructor
  · rintro ⟨r, hr, hz⟩
    rw [List.mem_flatMap] at hz
    obtain ⟨p, hp, hz⟩ := hz
    exact ⟨r, hr, p, hp, hz⟩
  · rintro ⟨r, hr, p, hp, hz⟩
    refine ⟨r, hr, ?_⟩
    rw [List.mem_flatMap]
    exact ⟨p, hp, hz⟩

theorem finderRadii_bounds (C : Consts) {r : ℚ}
    (hr : r ∈ finderInnerRadii C ++ finderOuterRadii C) :
    0 ≤ r ∧ r ≤ (C.FINDER_RADIUS : ℚ) := by
  have hR : (0 : ℚ) ≤ (C.FINDER_RADIUS : ℚ) := Nat.cast_nonneg _
  rw [List.mem_append] at hr
  rcases hr with hr | hr
  · have h := ascRadii_bounds hr
    exact ⟨h.1, by linarith [h.2]⟩
  · have h := ascRadii_bounds hr
    exact ⟨by linarith [h.1], h.2⟩

theorem mem_finderPixels_close (C : Consts) (c : ℚ × ℚ) {z : ℚ × ℚ}
    (hz : z ∈ finderPixels C c) :
    c.1 - (C.FINDER_RADIUS : ℚ) ≤ z.1 ∧ z.1 ≤ c.1 + (C.FINDER_RADIUS : ℚ) ∧
    c.2 - (C.FINDER_RADIUS : ℚ) ≤ z.2 ∧ z.2 ≤ c.2 + (C.FINDER_RADIUS : ℚ) := by
  rw [mem_finderPixels] at hz
  obtain ⟨r, hr, p, hp, hoct⟩ := hz
  obtain ⟨hr0, hrR⟩ := finderRadii_bounds C hr
  obtain ⟨hp0, hpy, hpr⟩ := circlePoints_bounds r p hp
  simp only [octantPoints, List.mem_cons, List.not_mem_nil, or_false] at hoct
  rcases hoct with rfl | rfl | rfl | rfl | rfl | rfl | rfl | rfl <;>
    exact ⟨by (try dsimp only); linarith, by (try dsimp only); linarith,
      by (try dsimp only); linarith, by (try dsimp only); linarith⟩

end Writer

/-- Claim C8: the finder pattern's pixel set is invariant under the
eight-octant mirror about its centre: a point `c + (x, y)` is among the pixels
the pattern draws exactly when each of its eight octant mirrors is; moreover,
for a pattern drawn on a fresh bitmap it fits inside, every offset produced by
the midpoint-circle walk at any drawn radius has its pixel and all eight of
its mirror pixels set. -/
theorem claim8_octant_symmetry (C : Writer.Consts) (c : ℚ × ℚ) (hgt wd : ℚ)
    (hx0 : (C.FINDER_RADIUS : ℚ) ≤ c.1)
    (hx1 : c.1 + (C.FINDER_RADIUS : ℚ) < wd)
    (hy0 : (C.FINDER_RADIUS : ℚ) ≤ c.2)
    (hy1 : c.2 + (C.FINDER_RADIUS : ℚ) < hgt) :
    (∀ x y : ℚ, (c.1 + x, c.2 + y) ∈ Writer.finderPixels C c ↔
      ∀ q ∈ Writer.octantPoints c x y, q ∈ Writer.finderPixels C c) ∧
    (∀ r ∈ Writer.finderInnerRadii C ++ Writer.finderOuterRadii C,
      ∀ p ∈ Writer.circlePoints r, ∀ q ∈ Writer.octantPoints c p.1 p.2,
        (Writer.drawFinderPattern C c (Writer.BitMatrix.mk0 hgt wd)).get
          q.1 q.2 = true) := by
  constructor
  · intro x y
    constructor
    · intro hmem q hq
      rw [Writer.mem_finderPixels] at hmem
      obtain ⟨r, hr, p, hp, hoct⟩ := hmem
      rw [Writer.mem_octantPoints_iff] at hoct
      rw [Writer.octantPoints_eq_map, List.mem_map] at hq
      obtain ⟨o, ho, rfl⟩ := hq
      rw [Writer.mem_finderPixels]
      refine ⟨r, hr, p, hp, ?_⟩
      rw [Writer.mem_octantPoints_iff]
      exact Writer.octantOffsets_closed hoct (o.1, o.2) (by
        rw [Prod.mk.eta]; exact ho)
    · intro hall
      exact hall (c.1 + x, c.2 + y) (by
        rw [Writer.mem_octantPoints_iff]
        exact List.mem_cons_self _ _)
  · intro r hr p hp q hq
    have hmem : q ∈ Writer.finderPixels C c := by
      rw [Writer.mem_finderPixels]
      exact ⟨r, hr, p, hp, hq⟩
    have hclose := Writer.mem_finderPixels_close C c hmem
    have hR : (0 : ℚ) ≤ (C.FINDER_RADIUS : ℚ) := Nat.cast_nonneg _
    rw [Writer.drawFinderPattern_eq_setAll, Writer.setAll_get,
      if_pos ⟨by rw [Prod.mk.eta]; exact hmem,
        ⟨by linarith [hclose.1],
         by show q.1 < wd; linarith [hclose.2.1],
         by linarith [hclose.2.2.1],
         by show q.2 < hgt; linarith [hclose.2.2.2]⟩⟩]

/-- Layout constants with finder radius 0, for the claim C8 witness. -/
def constsR0 : Writer.Consts :=
  { SYMBOL_DIM := 0, GAP_DIM := 0, GRID_OFFSET := 0, FINDER_OFFSET := 0,
    FINDER_RADIUS := 0, BITS_PER_SYMBOL := 0, UNIT_DIM := 0 }

/-- Witness for claim C8: radius-0 finder pattern centred at (1, 1) on a 3×3
bitmap; the walk visits offset (0, 0) and the centre pixel is set. -/
theorem claim8_witness :
    (Writer.drawFinderPattern constsR0 (1, 1)
      (Writer.BitMatrix.mk0 3 3)).get 1 1 = true := by
  have h := claim8_octant_symmetry constsR0 (1, 1) 3 3
    (by norm_num [constsR0]) (by norm_num [constsR0])
    (by norm_num [constsR0]) (by norm_num [constsR0])
  refine h.2 0 ?_ (0, 0) ?_ (1, 1) ?_
  · rw [List.mem_append]
    left
    unfold Writer.finderInnerRadii
    rw [show ((constsR0.FINDER_RADIUS : ℚ)) * 3 / 7 = 0 by norm_num [constsR0],
      Writer.ascRadii_eq, if_pos (le_refl (0 : ℚ))]
    exact List.mem_cons_self _ _
  · unfold Writer.circlePoints
    rw [Writer.circleWalk_eq, if_pos (le_refl (0 : ℚ))]
    exact List.mem_cons_self _ _
  · norm_num [Writer.octantPoints]

namespace Writer

theorem mem_rectPoints_natCast (x y : ℚ) (w h : ℕ) (z : ℚ × ℚ) :
    z ∈ rectPoints x y (w : ℚ) (h : ℚ) ↔
      ∃ i : ℕ, i < h ∧ ∃ j : ℕ, j < w ∧ z = (x + (j : ℚ), y + (i : ℚ)) := by
  unfold rectPoints
  rw [intsFrom_zero_natCast, intsFrom_zero_natCast, List.mem_flatMap]
  constructor
  · rintro ⟨iq, hiq, hz⟩
    rw [List.mem_map] at hiq
    obtain ⟨i, hi, rfl⟩ := hiq
    rw [List.mem_map] at hz
    obtain ⟨jq, hjq, rfl⟩ := hz
    rw [List.mem_map] at hjq
    obtain ⟨j, hj, rfl⟩ := hjq
    exact ⟨i, List.mem_range.mp hi, j, List.mem_range.mp hj, rfl⟩
  · rintro ⟨i, hi, j, hj, rfl⟩
    refine ⟨(i : ℚ), List.mem_map.mpr ⟨i, List.mem_range.mpr hi, rfl⟩, ?_⟩
    rw [List.mem_map]
    exact ⟨(j : ℚ), List.mem_map.mpr ⟨j, List.mem_range.mpr hj, rfl⟩, rfl⟩

theorem band_disjoint {u : ℕ} (hu : 0 < u) {b bit i i' : ℕ} (hne : bit ≠ b)
    (hi : i < u) (hi' : i' < u) :
    (u : ℚ) * (bit : ℚ) * 2 + (i' : ℚ) ≠ (u : ℚ) * (b : ℚ) * 2 + (i : ℚ) := by
  intro heq
  have heqN : u * bit * 2 + i' = u * b * 2 + i := by exact_mod_cast heq
  rcases Nat.lt_or_ge bit b with hlt | hge
  · have h1 : u * bit * 2 + u ≤ u * b * 2 := by
      calc u * bit * 2 + u = u * (2 * bit + 1) := by ring
        _ ≤ u * (2 * b) := Nat.mul_le_mul_left u (by omega)
        _ = u * b * 2 := by ring
    linarith
  · have hlt : b < bit := by omega
    have h1 : u * b * 2 + u ≤ u * bit * 2 := by
      calc u * b * 2 + u = u * (2 * b + 1) := by ring
        _ ≤ u * (2 * bit) := Nat.mul_le_mul_left u (by omega)
        _ = u * bit * 2 := by ring
    linarith

theorem inBounds_of_dims {m mp : BitMatrix} (hw : mp.width = m.width)
    (hh : mp.height = m.height) (x y : ℚ) :
    mp.inBounds x y ↔ m.inBounds x y := by
  unfold BitMatrix.inBounds
  rw [hw, hh]

theorem drawSymbolBar_get_off_band (C : Consts) (row col mask bit b i : ℕ)
    (m : BitMatrix) (x : ℚ) (hu : 0 < C.UNIT_DIM) (hi : i < C.UNIT_DIM)
    (hne : bit ≠ b) :
    (drawSymbolBar C row col mask bit m).get x
      (symbolStartY C row + (C.UNIT_DIM : ℚ) * (b : ℚ) * 2 + (i : ℚ)) =
    m.get x
      (symbolStartY C row + (C.UNIT_DIM : ℚ) * (b : ℚ) * 2 + (i : ℚ)) := by
  have hnot : ∀ (x0 : ℚ) (w : ℕ),
      (x, symbolStartY C row + (C.UNIT_DIM : ℚ) * (b : ℚ) * 2 + (i : ℚ)) ∉
        rectPoints x0
          (symbolStartY C row + (C.UNIT_DIM : ℚ) * (bit : ℚ) * 2)
          (w : ℚ) (C.UNIT_DIM : ℚ) := by
    intro x0 w hmem
    rw [mem_rectPoints_natCast] at hmem
    obtain ⟨i', hi', j', hj', heq⟩ := hmem
    have h2 : symbolStartY C row + (C.UNIT_DIM : ℚ) * (b : ℚ) * 2 + (i : ℚ) =
        symbolStartY C row + (C.UNIT_DIM : ℚ) * (bit : ℚ) * 2 + (i' : ℚ) :=
      congrArg Prod.snd heq
    exact band_disjoint hu hne hi hi' (by linarith)
  unfold drawSymbolBar
  dsimp only
  split
  · rw [fillRect_eq_setAll, setAll_get,
      if_neg (by
        rintro ⟨hmem, _⟩
        exact hnot (symbolStartX C col + (C.UNIT_DIM : ℚ) * 4.5)
          (2 * C.UNIT_DIM) (by
            rw [show ((2 * C.UNIT_DIM : ℕ) : ℚ) = (C.UNIT_DIM : ℚ) * 2 by
              push_cast; ring]
            exact hmem)),
      fillRect_eq_setAll, setAll_get,
      if_neg (by
        rintro ⟨hmem, _⟩
        exact hnot (symbolStartX C col) C.SYMBOL_DIM hmem)]
  · rw [fillRect_eq_setAll, setAll_get,
      if_neg (by
        rintro ⟨hmem, _⟩
        exact hnot (symbolStartX C col) C.SYMBOL_DIM hmem)]

theorem foldl_drawSymbolBar_get_off_band (C : Consts) (row col mask b i : ℕ)
    (x : ℚ) (hu : 0 < C.UNIT_DIM) (hi : i < C.UNIT_DIM) :
    ∀ (l : List ℕ), (∀ bit ∈ l, bit ≠ b) → ∀ (m : BitMatrix),
      (l.foldl (fun m (bit : ℕ) => drawSymbolBar C row col mask bit m) m).get x
        (symbolStartY C row + (C.UNIT_DIM : ℚ) * (b : ℚ) * 2 + (i : ℚ)) =
      m.get x
        (symbolStartY C row + (C.UNIT_DIM : ℚ) * (b : ℚ) * 2 + (i : ℚ)) := by
  intro l
  induction l with
  | nil => intro _ m; rfl
  | cons bit t ih =>
    intro hl m
    rw [List.foldl_cons, ih (fun a ha => hl a (List.mem_cons_of_mem _ ha)),
      drawSymbolBar_get_off_band C row col mask bit b i m x hu hi
        (hl bit (List.mem_cons_self _ _))]

theorem testBit_of_and_shift_eq_zero {mask b : ℕ} (h : mask &&& (1 <<< b) = 0) :
    mask.testBit b = false := by
  rw [Nat.shiftLeft_eq, one_mul, Nat.and_two_pow] at h
  rcases Bool.eq_false_or_eq_true (mask.testBit b) with hb | hb
  · rw [hb] at h
    simp at h
  · exact hb

theorem testBit_of_and_shift_ne_zero {mask b : ℕ} (h : ¬(mask &&& (1 <<< b) = 0)) :
    mask.testBit b = true := by
  rw [Nat.shiftLeft_eq, one_mul, Nat.and_two_pow] at h
  rcases Bool.eq_false_or_eq_true (mask.testBit b) with hb | hb
  · exact hb
  · rw [hb] at h
    simp at h

end Writer

namespace Writer

theorem drawSymbolBar_get_notch (C : Consts) (row col mask b i j : ℕ)
    (m : BitMatrix)
    (hu : 0 < C.UNIT_DIM) (hu2 : 2 ∣ C.UNIT_DIM)
    (hnotch : 13 * C.UNIT_DIM ≤ 2 * C.SYMBOL_DIM)
    (hi : i < C.UNIT_DIM) (hj : j < 2 * C.UNIT_DIM)
    (hin : m.inBounds (symbolStartX C col + (C.UNIT_DIM : ℚ) * 4.5 + (j : ℚ))
      (symbolStartY C row + (C.UNIT_DIM : ℚ) * (b : ℚ) * 2 + (i : ℚ))) :
    (drawSymbolBar C row col mask b m).get
      (symbolStartX C col + (C.UNIT_DIM : ℚ) * 4.5 + (j : ℚ))
      (symbolStartY C row + (C.UNIT_DIM : ℚ) * (b : ℚ) * 2 + (i : ℚ)) =
      mask.testBit b := by
  obtain ⟨t, ht⟩ := hu2
  have hcast : (C.UNIT_DIM : ℚ) * 4.5 + (j : ℚ) = ((9 * t + j : ℕ) : ℚ) := by
    rw [ht]; push_cast; ring
  have hbar : (symbolStartX C col + (C.UNIT_DIM : ℚ) * 4.5 + (j : ℚ),
      symbolStartY C row + (C.UNIT_DIM : ℚ) * (b : ℚ) * 2 + (i : ℚ)) ∈
      rectPoints (symbolStartX C col)
        (symbolStartY C row + (C.UNIT_DIM : ℚ) * (b : ℚ) * 2)
        (C.SYMBOL_DIM : ℚ) (C.UNIT_DIM : ℚ) := by
    rw [mem_rectPoints_natCast]
    refine ⟨i, hi, 9 * t + j, by omega, Prod.ext ?_ rfl⟩
    show symbolStartX C col + (C.UNIT_DIM : ℚ) * 4.5 + (j : ℚ) =
      symbolStartX C col + ((9 * t + j : ℕ) : ℚ)
    rw [add_assoc, hcast]
  have hnotch2 : (symbolStartX C col + (C.UNIT_DIM : ℚ) * 4.5 + (j : ℚ),
      symbolStartY C row + (C.UNIT_DIM : ℚ) * (b : ℚ) * 2 + (i : ℚ)) ∈
      rectPoints (symbolStartX C col + (C.UNIT_DIM : ℚ) * 4.5)
        (symbolStartY C row + (C.UNIT_DIM : ℚ) * (b : ℚ) * 2)
        ((2 * C.UNIT_DIM : ℕ) : ℚ) (C.UNIT_DIM : ℚ) := by
    rw [mem_rectPoints_natCast]
    exact ⟨i, hi, j, hj, rfl⟩
  unfold drawSymbolBar
  dsimp only
  by_cases hbit : mask &&& (1 <<< b) = 0
  · rw [if_pos hbit,
      show (C.UNIT_DIM : ℚ) * 2 = ((2 * C.UNIT_DIM : ℕ) : ℚ) by push_cast; ring,
      fillRect_eq_setAll, setAll_get,
      if_pos ⟨hnotch2, (inBounds_of_dims (width_fillRect _ _ _ _ _ _)
        (height_fillRect _ _ _ _ _ _) _ _).mpr hin⟩,
      testBit_of_and_shift_eq_zero hbit]
  · rw [if_neg hbit, fillRect_eq_setAll, setAll_get, if_pos ⟨hbar, hin⟩,
      testBit_of_and_shift_ne_zero hbit]

theorem drawSymbolBar_get_solid (C : Consts) (row col mask b i j : ℕ)
    (m : BitMatrix)
    (hu : 0 < C.UNIT_DIM)
    (hi : i < C.UNIT_DIM) (hj : j < C.SYMBOL_DIM)
    (hout : (j : ℚ) < (C.UNIT_DIM : ℚ) * 4.5 ∨
      (C.UNIT_DIM : ℚ) * 4.5 + (C.UNIT_DIM : ℚ) * 2 ≤ (j : ℚ))
    (hin : m.inBounds (symbolStartX C col + (j : ℚ))
      (symbolStartY C row + (C.UNIT_DIM : ℚ) * (b : ℚ) * 2 + (i : ℚ))) :
    (drawSymbolBar C row col mask b m).get
      (symbolStartX C col + (j : ℚ))
      (symbolStartY C row + (C.UNIT_DIM : ℚ) * (b : ℚ) * 2 + (i : ℚ)) =
      true := by
  have hbar : (symbolStartX C col + (j : ℚ),
      symbolStartY C row + (C.UNIT_DIM : ℚ) * (b : ℚ) * 2 + (i : ℚ)) ∈
      rectPoints (symbolStartX C col)
        (symbolStartY C row + (C.UNIT_DIM : ℚ) * (b : ℚ) * 2)
        (C.SYMBOL_DIM : ℚ) (C.UNIT_DIM : ℚ) := by
    rw [mem_rectPoints_natCast]
    exact ⟨i, hi, j, hj, rfl⟩
  have hnotnotch : (symbolStartX C col + (j : ℚ),
      symbolStartY C row + (C.UNIT_DIM : ℚ) * (b : ℚ) * 2 + (i : ℚ)) ∉
      rectPoints (symbolStartX C col + (C.UNIT_DIM : ℚ) * 4.5)
        (symbolStartY C row + (C.UNIT_DIM : ℚ) * (b : ℚ) * 2)
        ((2 * C.UNIT_DIM : ℕ) : ℚ) (C.UNIT_DIM : ℚ) := by
    intro hmem
    rw [mem_rectPoints_natCast] at hmem
    obtain ⟨i2, hi2, j2, hj2, heq⟩ := hmem
    have hx : symbolStartX C col + (j : ℚ) =
        symbolStartX C col + (C.UNIT_DIM : ℚ) * 4.5 + (j2 : ℚ) :=
      congrArg Prod.fst heq
    have hj2c : (j2 : ℚ) < 2 * (C.UNIT_DIM : ℚ) := by exact_mod_cast hj2
    have hj2n : (0 : ℚ) ≤ (j2 : ℚ) := Nat.cast_nonneg j2
    rcases hout with h | h
    · linarith
    · linarith
  unfold drawSymbolBar
  dsimp only
  by_cases hbit : mask &&& (1 <<< b) = 0
  · rw [if_pos hbit,
      show (C.UNIT_DIM : ℚ) * 2 = ((2 * C.UNIT_DIM : ℕ) : ℚ) by push_cast; ring,
      fillRect_eq_setAll, setAll_get, if_neg (fun hc => hnotnotch hc.1),
      fillRect_eq_setAll, setAll_get, if_pos ⟨hbar, hin⟩]
  · rw [if_neg hbit, fillRect_eq_setAll, setAll_get, if_pos ⟨hbar, hin⟩]

end Writer

/-- Claim C7: for every cell value v and bit b below BITS_PER_SYMBOL, the
rendered glyph's bar b — the UNIT_DIM-tall band at vertical offset
2·UNIT_DIM·b from the cell's top — is filled solid, and the 2·UNIT_DIM-wide
notch at horizontal offset 4.5·UNIT_DIM from the cell's left edge is cleared
inside that band exactly when bit b of v is 0: every notch pixel ends up equal
to bit b of v (so the notch is absent iff the bit is 1), and every band pixel
horizontally outside the notch is set. Hypotheses: the constants are a
sensible glyph geometry (positive even UNIT_DIM so that 4.5·UNIT_DIM is a
whole pixel count, the notch inside the symbol, all bars inside the symbol)
and the symbol cell lies inside the bitmap. -/
theorem claim7_glyph_bars (C : Writer.Consts) (row col v b : ℕ)
    (m : Writer.BitMatrix)
    (hb : b < C.BITS_PER_SYMBOL)
    (hu : 0 < C.UNIT_DIM) (hu2 : 2 ∣ C.UNIT_DIM)
    (hnotch : 13 * C.UNIT_DIM ≤ 2 * C.SYMBOL_DIM)
    (hband : C.UNIT_DIM * (2 * C.BITS_PER_SYMBOL - 1) ≤ C.SYMBOL_DIM)
    (hW : Writer.symbolStartX C col + (C.SYMBOL_DIM : ℚ) ≤ m.width)
    (hH : Writer.symbolStartY C row + (C.SYMBOL_DIM : ℚ) ≤ m.height) :
    (∀ i j : ℕ, i < C.UNIT_DIM → j < 2 * C.UNIT_DIM →
      (Writer.drawSymbol C row col v m).get
        (Writer.symbolStartX C col + (C.UNIT_DIM : ℚ) * 4.5 + (j : ℚ))
        (Writer.symbolStartY C row + (C.UNIT_DIM : ℚ) * (b : ℚ) * 2 + (i : ℚ)) =
        v.testBit b) ∧
    (∀ i j : ℕ, i < C.UNIT_DIM → j < C.SYMBOL_DIM →
      ((j : ℚ) < (C.UNIT_DIM : ℚ) * 4.5 ∨
        (C.UNIT_DIM : ℚ) * 4.5 + (C.UNIT_DIM : ℚ) * 2 ≤ (j : ℚ)) →
      (Writer.drawSymbol C row col v m).get
        (Writer.symbolStartX C col + (j : ℚ))
        (Writer.symbolStartY C row + (C.UNIT_DIM : ℚ) * (b : ℚ) * 2 + (i : ℚ)) =
        true) := by
  have hsplit : List.range C.BITS_PER_SYMBOL =
      List.range' 0 b ++ b :: List.range' (b + 1) (C.BITS_PER_SYMBOL - b - 1) := by
    rw [List.range_eq_range']
    have h := List.range'_append 0 b (C.BITS_PER_SYMBOL - b) 1
    rw [show 0 + 1 * b = b by omega,
      show C.BITS_PER_SYMBOL - b + b = C.BITS_PER_SYMBOL by omega] at h
    rw [← h, show C.BITS_PER_SYMBOL - b = (C.BITS_PER_SYMBOL - b - 1) + 1 by omega,
      List.range'_succ]
    simp
  have hdw : ((List.range' 0 b).foldl
      (fun m (bit : ℕ) => Writer.drawSymbolBar C row col v bit m) m).width =
      m.width :=
    Writer.foldl_width (fun m bit => Writer.width_drawSymbolBar C row col v bit m) _ m
  have hdh : ((List.range' 0 b).foldl
      (fun m (bit : ℕ) => Writer.drawSymbolBar C row col v bit m) m).height =
      m.height :=
    Writer.foldl_height (fun m bit => Writer.height_drawSymbolBar C row col v bit m) _ m
  have htail : ∀ bit ∈ List.range' (b + 1) (C.BITS_PER_SYMBOL - b - 1), bit ≠ b := by
    intro bit hbit
    rw [List.mem_range'_1] at hbit
    omega
  have hyband : ∀ i : ℕ, i < C.UNIT_DIM →
      0 ≤ Writer.symbolStartY C row + (C.UNIT_DIM : ℚ) * (b : ℚ) * 2 + (i : ℚ) ∧
      Writer.symbolStartY C row + (C.UNIT_DIM : ℚ) * (b : ℚ) * 2 + (i : ℚ) <
        m.height := by
    intro i hi
    have hN : C.UNIT_DIM * (2 * b + 1) ≤ C.SYMBOL_DIM :=
      le_trans (Nat.mul_le_mul_left _ (by omega)) hband
    have hNc : (C.UNIT_DIM : ℚ) * (2 * (b : ℚ) + 1) ≤ (C.SYMBOL_DIM : ℚ) := by
      exact_mod_cast hN
    have hic : (i : ℚ) < (C.UNIT_DIM : ℚ) := by exact_mod_cast hi
    constructor
    · unfold Writer.symbolStartY
      positivity
    · nlinarith [hNc, hic, hH]
  constructor
  · intro i j hi hj
    have hjc : (j : ℚ) < 2 * (C.UNIT_DIM : ℚ) := by exact_mod_cast hj
    have hnotchc : 13 * (C.UNIT_DIM : ℚ) ≤ 2 * (C.SYMBOL_DIM : ℚ) := by
      exact_mod_cast hnotch
    have hin : m.inBounds
        (Writer.symbolStartX C col + (C.UNIT_DIM : ℚ) * 4.5 + (j : ℚ))
        (Writer.symbolStartY C row + (C.UNIT_DIM : ℚ) * (b : ℚ) * 2 + (i : ℚ)) := by
      refine ⟨?_, ?_, (hyband i hi).1, (hyband i hi).2⟩
      · unfold Writer.symbolStartX
        positivity
      · nlinarith [hjc, hnotchc, hW]
    unfold Writer.drawSymbol
    rw [hsplit, List.foldl_append, List.foldl_cons,
      Writer.foldl_drawSymbolBar_get_off_band C row col v b i _ hu hi _ htail]
    exact Writer.drawSymbolBar_get_notch C row col v b i j _ hu hu2 hnotch hi hj
      ((Writer.inBounds_of_dims hdw hdh _ _).mpr hin)
  · intro i j hi hj hout
    have hjc : (j : ℚ) < (C.SYMBOL_DIM : ℚ) := by exact_mod_cast hj
    have hin : m.inBounds (Writer.symbolStartX C col + (j : ℚ))
        (Writer.symbolStartY C row + (C.UNIT_DIM : ℚ) * (b : ℚ) * 2 + (i : ℚ)) := by
      refine ⟨?_, ?_, (hyband i hi).1, (hyband i hi).2⟩
      · unfold Writer.symbolStartX
        positivity
      · linarith [hjc, hW]
    unfold Writer.drawSymbol
    rw [hsplit, List.foldl_append, List.foldl_cons,
      Writer.foldl_drawSymbolBar_get_off_band C row col v b i _ hu hi _ htail]
    exact Writer.drawSymbolBar_get_solid C row col v b i j _ hu hi hj hout
      ((Writer.inBounds_of_dims hdw hdh _ _).mpr hin)

/-- Layout constants for the claim C7 witness: one 6.5-unit-wide bar geometry
with UNIT_DIM 2, SYMBOL_DIM 13, a single bit per symbol. -/
def constsGlyph : Writer.Consts :=
  { SYMBOL_DIM := 13, GAP_DIM := 1, GRID_OFFSET := 0, FINDER_OFFSET := 0,
    FINDER_RADIUS := 0, BITS_PER_SYMBOL := 1, UNIT_DIM := 2 }

/-- Witness for claim C7: for cell value 1 and bit 0 on a 20×20 bitmap, the
top-left corner pixel of the notch area equals bit 0 of the value (the bar is
solid, no notch). -/
theorem claim7_witness :
    (Writer.drawSymbol constsGlyph 0 0 1 (Writer.BitMatrix.mk0 20 20)).get
      (Writer.symbolStartX constsGlyph 0 +
        (constsGlyph.UNIT_DIM : ℚ) * 4.5 + ((0 : ℕ) : ℚ))
      (Writer.symbolStartY constsGlyph 0 +
        (constsGlyph.UNIT_DIM : ℚ) * ((0 : ℕ) : ℚ) * 2 + ((0 : ℕ) : ℚ)) =
      Nat.testBit 1 0 :=
  (claim7_glyph_bars constsGlyph 0 0 1 0 (Writer.BitMatrix.mk0 20 20)
    (by decide) (by decide) (by decide) (by decide) (by decide)
    (by norm_num [Writer.symbolStartX, constsGlyph, Writer.BitMatrix.mk0])
    (by norm_num [Writer.symbolStartY, constsGlyph, Writer.BitMatrix.mk0])).1 0 0
    (by decide) (by decide)
